import Mathlib

/-!
Verification development for `GetSmallVersionAi.py`, a directory-tree diff
extractor with an optional copyright-year rewrite.

The Python source is shallowly embedded:

* the regex
  `(Copyright\s*)(\(c\)\s*)?(\d{4}\s*-\s*)?(\d{4})(,\s*)?(Insyde Software Corp\. All Rights Reserved\.)`
  and `re.sub` over it become a deterministic parser `matchAt` over `List Char`
  (the pattern's whitespace/digit classes are disjoint from every literal that
  can follow them, and the optional groups are tried present-first via `<|>`,
  so this parser computes exactly Python's leftmost match) and a scan loop
  `subScan`;
* `\s` and `\d` are modelled by their ASCII members, the alphabet the tool's
  inputs use;
* file trees are finite association lists from relative paths to byte lists,
  the two `os.walk` passes become folds over them, and the output directory is
  a store keyed by (side, relative path);
* `open(..., encoding="utf-8")` becomes a strict UTF-8 decoder over byte
  lists followed by the universal-newline translation of text mode
  (`\r\n` and `\r` read as `\n`); writing text re-encodes as UTF-8, the
  `\n`-to-`os.linesep` translation being the identity on the modeled POSIX
  platform.
-/

namespace GetSmallVersion

/-- ASCII members of the regex class `\s` (space, tab, LF, CR, VT, FF). -/
def isSpaceCh (c : Char) : Bool :=
  c = ' ' || c = '\t' || c = '\n' || c = '\r' || c = '\x0b' || c = '\x0c'

/-- ASCII members of the regex class `\d`. -/
def isDigitCh (c : Char) : Bool :=
  '0' ≤ c && c ≤ '9'

/-- Consume an exact literal (a regex literal such as `Copyright`). -/
def eatLit : List Char → List Char → Option (List Char)
  | [], s => some s
  | _ :: _, [] => none
  | l :: ls, c :: cs => if c = l then eatLit ls cs else none

/-- Consume `\s*` greedily. -/
def eatSpaces : List Char → List Char
  | [] => []
  | c :: cs => if isSpaceCh c then eatSpaces cs else c :: cs

/-- Consume `\d{4}`. -/
def eat4Digits : List Char → Option (List Char)
  | a :: b :: c :: d :: rest =>
      if isDigitCh a && isDigitCh b && isDigitCh c && isDigitCh d then some rest else none
  | _ => none

/-- The literal of group 1 of the pattern. -/
def copyLit : List Char := "Copyright".data

/-- The literal of group 6 of the pattern. -/
def sufLit : List Char := "Insyde Software Corp. All Rights Reserved.".data

/-- The literal of group 2 of the pattern. -/
def cMarkLit : List Char := "(c)".data

/-- Consume group 6. -/
def eatSuffix (s : List Char) : Option (List Char) := eatLit sufLit s

/-- Consume `(,\s*)?` then group 6, trying the comma branch first as Python does. -/
def afterYear (s : List Char) : Option (List Char) :=
  match s with
  | c :: rest =>
    if c = ',' then eatSuffix (eatSpaces rest) <|> eatSuffix s
    else eatSuffix s
  | [] => eatSuffix s

/-- After `\d{4}\s*-`: consume `\s*` then the second `\d{4}` then the tail. -/
def afterRangeDash (r2 : List Char) : Option (List Char) :=
  match eat4Digits (eatSpaces r2) with
  | some u2 => afterYear u2
  | none => none

/-- Expect the `-` of a year range. -/
def dashStep (t : List Char) : Option (List Char) :=
  match t with
  | c :: r2 => if c = '-' then afterRangeDash r2 else none
  | [] => none

/-- Consume `\d{4}\s*-\s*` then `\d{4}` then the tail (the range branch of group 3). -/
def withRange (s : List Char) : Option (List Char) :=
  match eat4Digits s with
  | some u => dashStep (eatSpaces u)
  | none => none

/-- Consume `\d{4}` then the tail (group 3 absent). -/
def noRange (s : List Char) : Option (List Char) :=
  match eat4Digits s with
  | some u => afterYear u
  | none => none

/-- `(\d{4}\s*-\s*)?(\d{4})(,\s*)?(suffix)`, range branch tried first. -/
def fromYears (s : List Char) : Option (List Char) :=
  withRange s <|> noRange s

/-- `(\(c\)\s*)?` then the year part, `(c)` branch tried first. -/
def fromC (s : List Char) : Option (List Char) :=
  (match eatLit cMarkLit s with
   | some u => fromYears (eatSpaces u)
   | none => none) <|> fromYears s

/-- Whether the whole pattern matches at the head of `s`; on success returns the
unconsumed suffix (so the matched span is the consumed prefix). -/
def matchAt (s : List Char) : Option (List Char) :=
  match eatLit copyLit s with
  | some u => fromC (eatSpaces u)
  | none => none

/-! ### Length bounds, used only for the termination of the scan loop -/

theorem eatLit_length {l s r : List Char} (h : eatLit l s = some r) :
    r.length + l.length = s.length := by
  induction l generalizing s with
  | nil => simp [eatLit] at h; simp [h]
  | cons x xs ih =>
    cases s with
    | nil => simp [eatLit] at h
    | cons c cs =>
      simp only [eatLit] at h
      split at h
      · have := ih h
        simp [List.length_cons]
        omega
      · exact absurd h (by simp)

theorem eatSpaces_length (s : List Char) : (eatSpaces s).length ≤ s.length := by
  induction s with
  | nil => simp [eatSpaces]
  | cons c cs ih =>
    simp only [eatSpaces]
    split
    · exact le_trans ih (by simp)
    · simp

theorem eat4Digits_length {s r : List Char} (h : eat4Digits s = some r) :
    r.length + 4 = s.length := by
  unfold eat4Digits at h
  split at h
  · split at h
    · cases h; simp
    · exact absurd h (by simp)
  · exact absurd h (by simp)

theorem orElse_eq_some {α : Type} {a b : Option α} {v : α}
    (h : (a <|> b) = some v) : a = some v ∨ (a = none ∧ b = some v) := by
  cases a with
  | none => right; exact ⟨rfl, by simpa using h⟩
  | some x => left; simpa using h

theorem eatSuffix_length {s r : List Char} (h : eatSuffix s = some r) :
    r.length ≤ s.length := by
  have := eatLit_length h
  omega

theorem afterYear_length {s r : List Char} (h : afterYear s = some r) :
    r.length ≤ s.length := by
  unfold afterYear at h
  split at h
  case h_1 c rest =>
    split at h
    case isTrue hc =>
      rcases orElse_eq_some h with h1 | ⟨_, h2⟩
      · have h3 := eatSuffix_length h1
        have h4 := eatSpaces_length rest
        simp only [List.length_cons]
        omega
      · exact eatSuffix_length h2
    case isFalse hc => exact eatSuffix_length h
  case h_2 => exact eatSuffix_length h

theorem afterRangeDash_length {r2 r : List Char} (h : afterRangeDash r2 = some r) :
    r.length ≤ r2.length := by
  unfold afterRangeDash at h
  split at h
  case h_1 u2 hu2 =>
    have l1 := eatSpaces_length r2
    have l2 := eat4Digits_length hu2
    have l3 := afterYear_length h
    omega
  case h_2 => exact absurd h (by simp)

theorem dashStep_length {t r : List Char} (h : dashStep t = some r) :
    r.length ≤ t.length := by
  unfold dashStep at h
  split at h
  case h_1 c r2 =>
    split at h
    case isTrue =>
      have := afterRangeDash_length h
      simp only [List.length_cons]
      omega
    case isFalse => exact absurd h (by simp)
  case h_2 => exact absurd h (by simp)

theorem withRange_length {s r : List Char} (h : withRange s = some r) :
    r.length ≤ s.length := by
  unfold withRange at h
  split at h
  case h_1 u hu =>
    have l1 := eat4Digits_length hu
    have l2 := eatSpaces_length u
    have l3 := dashStep_length h
    omega
  case h_2 => exact absurd h (by simp)

theorem noRange_length {s r : List Char} (h : noRange s = some r) :
    r.length ≤ s.length := by
  unfold noRange at h
  split at h
  case h_1 u hu =>
    have := eat4Digits_length hu
    have := afterYear_length h
    omega
  case h_2 => exact absurd h (by simp)

theorem fromYears_length {s r : List Char} (h : fromYears s = some r) :
    r.length ≤ s.length := by
  rcases orElse_eq_some h with h1 | ⟨_, h2⟩
  · exact withRange_length h1
  · exact noRange_length h2

theorem fromC_length {s r : List Char} (h : fromC s = some r) :
    r.length ≤ s.length := by
  rcases orElse_eq_some h with h1 | ⟨_, h2⟩
  · split at h1
    case h_1 u hu =>
      have l1 := eatLit_length hu
      have l2 := eatSpaces_length u
      have l3 := fromYears_length h1
      simp [cMarkLit] at l1
      omega
    case h_2 => exact absurd h1 (by simp)
  · exact fromYears_length h2

theorem matchAt_length {s r : List Char} (h : matchAt s = some r) :
    r.length < s.length := by
  unfold matchAt at h
  split at h
  case h_1 u hu =>
    have l1 := eatLit_length hu
    have l2 := eatSpaces_length u
    have l3 := fromC_length h
    simp [copyLit] at l1
    omega
  case h_2 => exact absurd h (by simp)

/-- The scan loop of `re.sub`: at each position try the pattern; on a match emit
the replacement `R` and continue after the match, otherwise keep the character.
(The pattern never matches the empty string, so no empty-match rule is needed.) -/
def subScan (R : List Char) (s : List Char) : List Char :=
  match h : matchAt s with
  | some rem => R ++ subScan R rem
  | none =>
    match s with
    | [] => []
    | c :: cs => c :: subScan R cs
termination_by s.length
decreasing_by
  · exact matchAt_length h
  · simp

/-! ### Exclusion filter (`should_exclude`) -/

/-- The platform directory separator `os.sep`, modelled as the POSIX one. -/
def osSep : String := "/"

/-- Python's `str.split` with a one-character separator (accumulator holds the
current field reversed). `"".split(sep)` is `[""]`, like Python's. -/
def pySplitAux (sep : Char) : List Char → List Char → List (List Char)
  | [], acc => [acc.reverse]
  | c :: cs, acc =>
    if c = sep then acc.reverse :: pySplitAux sep cs []
    else pySplitAux sep cs (c :: acc)

/-- `s.split(sep)` for a one-character separator. -/
def pySplit (sep : Char) (s : String) : List String :=
  (pySplitAux sep s.data []).map String.mk

/-- Index of the last occurrence of `c` in `l`, if any. -/
def lastIdxOf (c : Char) : List Char → Option Nat
  | [] => none
  | x :: xs =>
    match lastIdxOf c xs with
    | some i => some (i + 1)
    | none => if x = c then some 0 else none

/-- The extension part of `os.path.splitext`: the substring from the last dot on,
except that the dot must come after the last separator and at least one
character strictly between the separator and that dot must not itself be a dot
(leading dots of a base name never start an extension). -/
def splitext_ext (p : String) : String :=
  let cs := p.data
  let sepIdx : Int := match lastIdxOf '/' cs with | some i => (i : Int) | none => -1
  let dotIdx : Int := match lastIdxOf '.' cs with | some i => (i : Int) | none => -1
  if sepIdx < dotIdx then
    if (List.range cs.length).any
        (fun i => decide (sepIdx < (i : Int)) && decide ((i : Int) < dotIdx)
          && !(cs.getD i '.' = '.')) then
      String.mk (cs.drop dotIdx.toNat)
    else ""
  else ""

/-- `should_exclude`: a file is excluded when a component of its relative
directory is in `exclude_dirs`, its name is in `exclude_files`, or its
`splitext` extension is in `exclude_exts`. -/
def should_exclude (rel_path file_name : String)
    (exclude_dirs exclude_files exclude_exts : List String) : Bool :=
  if (pySplit '/' rel_path).any (fun part => decide (part ∈ exclude_dirs)) then true
  else if file_name ∈ exclude_files then true
  else if splitext_ext file_name ∈ exclude_exts then true
  else false

/-! ### File trees, the output store and the two traversal passes -/

/-- A file's relative location: the list of directory components under the tree
root (empty for a root-level file) and the file name. -/
abbrev RelFile := List String × String

/-- File contents, as bytes. -/
abbrev Bytes := List Nat

/-- A directory tree as the listing `os.walk` enumerates: relative locations
with their byte contents. -/
abbrev Listing := List (RelFile × Bytes)

/-- Contents of the file at `r`, when the tree has one (`os.path.exists` plus a
read). -/
def lookupFile (t : Listing) (r : RelFile) : Option Bytes :=
  (t.find? (fun p => decide (p.1 = r))).map (·.2)

/-- The string `os.path.relpath(root, tree_root)` yields for a directory of the
walk: `"."` for the root itself, otherwise the components joined with the
separator. -/
def relDirStr (parts : List String) : String :=
  if parts = [] then "." else String.intercalate osSep parts

/-- The two output subtrees. -/
inductive Side
  | original
  | modified
deriving DecidableEq

/-- The output directory: what has been written at each (side, relative path). -/
def Store := Side × RelFile → Option Bytes

/-- The freshly created output directory. -/
def emptyStore : Store := fun _ => none

/-- Writing one file into the output directory. -/
def writeStore (st : Store) (sd : Side) (r : RelFile) (c : Bytes) : Store :=
  fun q => if q = (sd, r) then some c else st q

/-! ### UTF-8, for `open(..., encoding="utf-8")` -/

/-- A UTF-8 continuation byte. -/
def contB (b : Nat) : Bool := 128 ≤ b && b ≤ 191

/-- Strict UTF-8 decoding (rejects overlong forms, surrogates and out-of-range
code points, as Python's `utf-8` codec does). -/
def utf8Decode : List Nat → Option (List Char)
  | [] => some []
  | b1 :: rest =>
    if b1 < 128 then
      (utf8Decode rest).map (fun cs => Char.ofNat b1 :: cs)
    else if 194 ≤ b1 && b1 ≤ 223 then
      match rest with
      | b2 :: rest2 =>
        if contB b2 then
          (utf8Decode rest2).map (fun cs => Char.ofNat ((b1 - 192) * 64 + (b2 - 128)) :: cs)
        else none
      | [] => none
    else if 224 ≤ b1 && b1 ≤ 239 then
      match rest with
      | b2 :: b3 :: rest2 =>
        if ((if b1 = 224 then 160 else 128) ≤ b2 && b2 ≤ (if b1 = 237 then 159 else 191))
            && contB b3 then
          (utf8Decode rest2).map
            (fun cs => Char.ofNat ((b1 - 224) * 4096 + (b2 - 128) * 64 + (b3 - 128)) :: cs)
        else none
      | _ => none
    else if 240 ≤ b1 && b1 ≤ 244 then
      match rest with
      | b2 :: b3 :: b4 :: rest2 =>
        if ((if b1 = 240 then 144 else 128) ≤ b2 && b2 ≤ (if b1 = 244 then 143 else 191))
            && contB b3 && contB b4 then
          (utf8Decode rest2).map
            (fun cs =>
              Char.ofNat ((b1 - 240) * 262144 + (b2 - 128) * 4096 + (b3 - 128) * 64 + (b4 - 128)) :: cs)
        else none
      | _ => none
    else none

/-- UTF-8 encoding of one character. -/
def utf8EncodeChar (c : Char) : Bytes :=
  let n := c.toNat
  if n < 128 then [n]
  else if n < 2048 then [192 + n / 64, 128 + n % 64]
  else if n < 65536 then [224 + n / 4096, 128 + (n / 64) % 64, 128 + n % 64]
  else [240 + n / 262144, 128 + (n / 4096) % 64, 128 + (n / 64) % 64, 128 + n % 64]

/-- UTF-8 encoding, for writing the rewritten text back out. -/
def utf8Encode (l : List Char) : Bytes := (l.map utf8EncodeChar).flatten

/-! ### Copyright rewriter (`copy_with_copyright_update`) -/

/-- The replacement text the source's `replacement_logic` emits for every match:
`f"Copyright {CURRENT_YEAR} {m.group(6)}"` in the new format,
`f"Copyright (c) {CURRENT_YEAR}, {m.group(6)}"` otherwise (group 6 is the fixed
suffix literal). `ys` stands for the decimal digits of `CURRENT_YEAR`. -/
def replChars (use_new_format : Bool) (ys : List Char) : List Char :=
  if use_new_format then copyLit ++ ([' '] ++ (ys ++ ([' '] ++ sufLit)))
  else copyLit ++ ([' '] ++ (cMarkLit ++ ([' '] ++ (ys ++ ([',', ' '] ++ sufLit)))))

/-- `re.sub` of the copyright pattern over decoded text. -/
def copyrightRewrite (use_new_format : Bool) (year : Nat) (content : List Char) : List Char :=
  subScan (replChars use_new_format (toString year).data) content

/-- Universal-newline translation of Python text-mode reading
(`open(..., "r", encoding="utf-8")` with the default `newline=None`): every
`\r\n` pair and every lone `\r` becomes `\n`. -/
def nlTranslate : List Char → List Char
  | [] => []
  | c :: rest =>
    if c = '\r' then
      match rest with
      | c2 :: rest2 =>
        if c2 = '\n' then '\n' :: nlTranslate rest2 else '\n' :: nlTranslate (c2 :: rest2)
      | [] => ['\n']
    else c :: nlTranslate rest

/-- `copy_with_copyright_update`: read as UTF-8 text — which decodes the bytes
and applies universal-newline translation — substitute, then write the result
back as UTF-8 text (writing translates `\n` to `os.linesep`, the identity on
the modeled POSIX platform); on any failure fall back to a verbatim byte copy
(`shutil.copy2`). The result is the byte contents of the destination file. -/
def copy_with_copyright_update (use_new_format : Bool) (year : Nat) (srcBytes : Bytes) : Bytes :=
  match utf8Decode srcBytes with
  | some content => utf8Encode (copyrightRewrite use_new_format year (nlTranslate content))
  | none => srcBytes

/-! ### Comparator/extractor (`compare_and_extract`) -/

/-- What lands on the `Modified` side for a source-B file: rewritten when
`update_copyright` is set, a verbatim `shutil.copy2` otherwise. -/
def modifiedContent (update_copyright use_new_format : Bool) (year : Nat) (cb : Bytes) : Bytes :=
  if update_copyright then copy_with_copyright_update use_new_format year cb else cb

/-- One file of pass 1 (the walk over `folder_a`). -/
def pass1Step (B : Listing) (ed ef ee : List String)
    (update_copyright use_new_format : Bool) (year : Nat)
    (st : Store) (entry : RelFile × Bytes) : Store :=
  if should_exclude (relDirStr entry.1.1) entry.1.2 ed ef ee then st
  else
    match lookupFile B entry.1 with
    | none => writeStore st .original entry.1 entry.2
    | some cb =>
      if cb = entry.2 then st
      else
        writeStore (writeStore st .original entry.1 entry.2)
          .modified entry.1 (modifiedContent update_copyright use_new_format year cb)

/-- One file of pass 2 (the walk over `folder_b`). -/
def pass2Step (A : Listing) (ed ef ee : List String)
    (update_copyright use_new_format : Bool) (year : Nat)
    (st : Store) (entry : RelFile × Bytes) : Store :=
  if should_exclude (relDirStr entry.1.1) entry.1.2 ed ef ee then st
  else
    match lookupFile A entry.1 with
    | none => writeStore st .modified entry.1 (modifiedContent update_copyright use_new_format year entry.2)
    | some _ => st

/-- `compare_and_extract`: pass 1 over tree A, then pass 2 over tree B, starting
from the fresh output directory. -/
def compare_and_extract (A B : Listing) (ed ef ee : List String)
    (update_copyright use_new_format : Bool) (year : Nat) : Store :=
  B.foldl (pass2Step A ed ef ee update_copyright use_new_format year)
    (A.foldl (pass1Step B ed ef ee update_copyright use_new_format year) emptyStore)

/-! ### Configuration loading and the CLI/config merge -/

/-- The recognized keys of the YAML configuration document; `none` when the
document does not set the key. -/
structure ConfigDoc where
  exclude_dirs : Option (List String)
  exclude_files : Option (List String)
  exclude_exts : Option (List String)
  verbose : Option Bool
  output_root : Option String
  update_copyright : Option Bool
  new_copyright_format : Option Bool
deriving DecidableEq

/-- The empty configuration `{}`. -/
def emptyConfig : ConfigDoc := ⟨none, none, none, none, none, none, none⟩

/-- What the filesystem holds at the configuration path. -/
inductive ConfigFileState
  | absent
  | unreadable (cfg : ConfigDoc)
  | readable (cfg : ConfigDoc)

/-- An uncaught Python exception. -/
inductive PyError
  | ioError
deriving DecidableEq

/-- `load_config`: a falsy or non-existing path yields `{}`; an existing path is
opened and parsed — and `open` on an existing but unreadable file raises, which
nothing in `load_config` catches. -/
def load_config (config_path : Option String) (fs : String → ConfigFileState) :
    Except PyError ConfigDoc :=
  match config_path with
  | none => .ok emptyConfig
  | some p =>
    match fs p with
    | .absent => .ok emptyConfig
    | .unreadable _ => .error .ioError
    | .readable cfg => .ok cfg

/-- Built-in default of `--output-root`. -/
def DEFAULT_OUTPUT_ROOT : String := "./MyDiffOutput"

/-- `argparse` fills `args.output_root` with the flag's default when the flag is
absent, so the attribute is a string either way, never `None`. -/
def argsOutputRoot (cliOutputRoot : Option String) : Option String :=
  some (cliOutputRoot.getD DEFAULT_OUTPUT_ROOT)

/-- Line `output_root = args.output_root if args.output_root is not None else
config.get("output_root", DEFAULT_OUTPUT_ROOT)` of `main`. -/
def effectiveOutputRoot (cliOutputRoot : Option String) (cfg : ConfigDoc) : String :=
  match argsOutputRoot cliOutputRoot with
  | some v => v
  | none => cfg.output_root.getD DEFAULT_OUTPUT_ROOT

/-- The `exclude_dirs` merge line of `main`; `--exclude-dirs` uses `nargs="*"`
with no default, so `args.exclude_dirs` is `None` exactly when the flag is
absent. -/
def effectiveExcludeDirs (cli : Option (List String)) (cfg : ConfigDoc) : List String :=
  match cli with
  | some v => v
  | none => cfg.exclude_dirs.getD []

/-- The `verbose` merge line of `main` (`args.verbose or config.get(...)`). -/
def effectiveVerbose (cliVerbose : Bool) (cfg : ConfigDoc) : Bool :=
  cliVerbose || cfg.verbose.getD false

/-! ### Output directory preparation and `main`'s control flow -/

/-- `prepare_output_dir`: an existing output root is removed (exiting with
status 1 when `shutil.rmtree` fails) and then `os.makedirs` (re)creates it. -/
def prepare_output_dir (existsAtStart rmtreeSucceeds : Bool) : Except Nat Unit :=
  if existsAtStart then
    if rmtreeSucceeds then .ok ()
    else .error 1
  else .ok ()

/-- `main` after argument merging: prepare the output directory, then run the
comparison. `stale` is whatever the output root held before the run; an
`.error` result is a process exit with that status before any comparison. -/
def mainRun (stale : Store) (existsAtStart rmtreeSucceeds : Bool)
    (A B : Listing) (ed ef ee : List String)
    (update_copyright use_new_format : Bool) (year : Nat) : Except Nat Store :=
  match prepare_output_dir existsAtStart rmtreeSucceeds with
  | .error code => .error code
  | .ok () => .ok (compare_and_extract A B ed ef ee update_copyright use_new_format year)

/-! ### Specification-side definitions used to state the claims -/

/-- What C6's own words call the file's extension: the substring of the file
name from its last `"."` inclusive (empty when there is no dot). Stated from
the claim, to be compared with the source's `splitext_ext`. -/
def lastDotSubstring (file_name : String) : String :=
  match lastIdxOf '.' file_name.data with
  | some i => String.mk (file_name.data.drop i)
  | none => ""

/-- The shape of one `re.sub` run: the output agrees with the input character
by character at every position where no match starts, and each (leftmost,
non-overlapping) matched span is replaced by the replacement `R`. -/
inductive RewriteSpec (R : List Char) : List Char → List Char → Prop
  | nil : RewriteSpec R [] []
  | keep (c : Char) (s t : List Char) : matchAt (c :: s) = none →
      RewriteSpec R s t → RewriteSpec R (c :: s) (c :: t)
  | matched (s rem t : List Char) : matchAt s = some rem →
      RewriteSpec R rem t → RewriteSpec R s (R ++ t)

/-- All characters are `\s` members. -/
def AllSpace (l : List Char) : Prop := ∀ c ∈ l, isSpaceCh c = true

/-- Shape of a consumed group 2 (`(\(c\)\s*)?`). -/
def G2ok (g2 : List Char) : Prop :=
  g2 = [] ∨ ∃ sp, AllSpace sp ∧ g2 = cMarkLit ++ sp

/-- Shape of a consumed group 4 (`\d{4}`). -/
def Y4ok (y4 : List Char) : Prop :=
  ∃ a b c d, isDigitCh a = true ∧ isDigitCh b = true ∧ isDigitCh c = true ∧
    isDigitCh d = true ∧ y4 = [a, b, c, d]

/-- Shape of a consumed group 3 (`(\d{4}\s*-\s*)?`). -/
def G3ok (g3 : List Char) : Prop :=
  g3 = [] ∨ ∃ y spA spB, Y4ok y ∧ AllSpace spA ∧ AllSpace spB ∧
    g3 = y ++ (spA ++ ('-' :: spB))

/-- Shape of a consumed group 5 (`(,\s*)?`). -/
def G5ok (g5 : List Char) : Prop :=
  g5 = [] ∨ ∃ sp, AllSpace sp ∧ g5 = ',' :: sp

/-- The first character, if any, is not a `\s` member. -/
def HeadNotSpace : List Char → Prop
  | [] => True
  | c :: _ => isSpaceCh c = false

/-- The characters that can occur strictly between the `Copyright` literal and
the suffix literal of a match. -/
def midChar (c : Char) : Bool :=
  isSpaceCh c || isDigitCh c || c = '(' || c = 'c' || c = ')' || c = '-' || c = ','

/-! ### Shared lemmas -/

theorem matchAt_nil : matchAt [] = none := rfl

theorem subScan_of_match {R s rem} (hm : matchAt s = some rem) :
    subScan R s = R ++ subScan R rem := by
  rw [subScan]
  split
  case h_1 rem2 hm2 => rw [hm] at hm2; cases hm2; rfl
  case h_2 hm2 => rw [hm] at hm2; cases hm2

theorem subScan_of_nomatch_cons {R : List Char} {c : Char} {cs : List Char}
    (hm : matchAt (c :: cs) = none) :
    subScan R (c :: cs) = c :: subScan R cs := by
  rw [subScan]
  split
  case h_1 rem2 hm2 => rw [hm] at hm2; cases hm2
  case h_2 hm2 => rfl

theorem subScan_nil (R : List Char) : subScan R [] = [] := by
  rw [subScan]
  split
  case h_1 rem hm => rw [matchAt_nil] at hm; cases hm
  case h_2 hm => rfl

/-- A run of the scan loop satisfies the rewrite shape. -/
theorem subScan_rewriteSpec (R s) : RewriteSpec R s (subScan R s) := by
  generalize hn : s.length = n
  induction n using Nat.strong_induction_on generalizing s with
  | _ n ih =>
    cases hm : matchAt s with
    | some rem =>
      rw [subScan_of_match hm]
      exact RewriteSpec.matched s rem _ hm
        (ih rem.length (hn ▸ matchAt_length hm) rem rfl)
    | none =>
      cases s with
      | nil => rw [subScan_nil]; exact RewriteSpec.nil
      | cons c cs =>
        rw [subScan_of_nomatch_cons hm]
        have hlt : cs.length < n := by rw [← hn]; simp
        exact RewriteSpec.keep c cs _ hm (ih cs.length hlt cs rfl)

/-- The rewrite shape determines the output: `RewriteSpec` really is a
specification of the scan, not just one possible reading of it. -/
theorem rewriteSpec_unique {R s t t'} (h : RewriteSpec R s t)
    (h' : RewriteSpec R s t') : t = t' := by
  induction h generalizing t' with
  | nil => cases h' with
    | nil => rfl
    | matched _ rem _ hm _ => simp [matchAt_nil] at hm
  | keep c s t hm hs ih =>
    cases h' with
    | keep _ _ t₂ hm₂ hs₂ => exact congrArg _ (ih hs₂)
    | matched _ rem _ hm₂ _ => rw [hm] at hm₂; cases hm₂
  | matched s rem t hm hs ih =>
    cases h' with
    | nil => simp [matchAt_nil] at hm
    | keep _ _ _ hm₂ _ => rw [hm] at hm₂; cases hm₂
    | matched _ rem₂ t₂ hm₂ hs₂ =>
      rw [hm] at hm₂
      cases hm₂
      exact congrArg _ (ih hs₂)

/-- When no match starts at any position, the scan is the identity. -/
theorem subScan_id_of_nomatch {R s} (h : ∀ E ∈ s.tails, matchAt E = none) :
    subScan R s = s := by
  induction s with
  | nil => exact subScan_nil R
  | cons c cs ih =>
    rw [subScan_of_nomatch_cons (h (c :: cs) (by rw [List.mem_tails]))]
    rw [ih fun E hE => h E (by
      rw [List.mem_tails] at hE ⊢
      exact hE.trans (List.suffix_cons c cs))]

/-- Sanity: the old-format replacement really is the f-string
`f"Copyright (c) {CURRENT_YEAR}, {suffix}"` at year 2026. -/
theorem replChars_old_eq :
    replChars false ['2', '0', '2', '6'] =
      "Copyright (c) 2026, Insyde Software Corp. All Rights Reserved.".data := by
  decide

/-- Sanity: the new-format replacement really is the f-string
`f"Copyright {CURRENT_YEAR} {suffix}"` at year 2026. -/
theorem replChars_new_eq :
    replChars true ['2', '0', '2', '6'] =
      "Copyright 2026 Insyde Software Corp. All Rights Reserved.".data := by
  decide

theorem eatLit_self (l t : List Char) : eatLit l (l ++ t) = some t := by
  induction l with
  | nil => rfl
  | cons c cs ih => simp [eatLit, ih]

theorem eatLit_cons (x : Char) (xs : List Char) (c : Char) (cs : List Char) :
    eatLit (x :: xs) (c :: cs) = if c = x then eatLit xs cs else none := rfl

theorem eatLit_inv {l s r : List Char} (h : eatLit l s = some r) : s = l ++ r := by
  induction l generalizing s with
  | nil => simp only [eatLit, Option.some.injEq] at h; rw [h]; rfl
  | cons x xs ih =>
    cases s with
    | nil => exact absurd h (by simp [eatLit])
    | cons c cs =>
      rw [eatLit_cons] at h
      split at h
      case isTrue hc => rw [List.cons_append, ← ih h, hc]
      case isFalse hc => exact absurd h (by simp)

theorem eatSpaces_id {t : List Char} (ht : HeadNotSpace t) : eatSpaces t = t := by
  cases t with
  | nil => rfl
  | cons c cs =>
    have ht' : isSpaceCh c = false := ht
    simp [eatSpaces, ht']

theorem eatSpaces_decomp (s : List Char) :
    ∃ sp, AllSpace sp ∧ s = sp ++ eatSpaces s := by
  induction s with
  | nil => exact ⟨[], by simp [AllSpace], rfl⟩
  | cons c cs ih =>
    by_cases hc : isSpaceCh c = true
    · obtain ⟨sp, hsp, heq⟩ := ih
      refine ⟨c :: sp, ?_, ?_⟩
      · intro x hx
        rcases List.mem_cons.mp hx with rfl | hx
        · exact hc
        · exact hsp x hx
      · rw [show eatSpaces (c :: cs) = eatSpaces cs from by simp [eatSpaces, hc]]
        rw [List.cons_append, ← heq]
    · exact ⟨[], by simp [AllSpace], by simp [eatSpaces, hc]⟩

theorem eatSpaces_append {sp t : List Char} (hsp : AllSpace sp) (ht : HeadNotSpace t) :
    eatSpaces (sp ++ t) = t := by
  induction sp with
  | nil => exact eatSpaces_id ht
  | cons c cs ih =>
    rw [List.cons_append]
    rw [show eatSpaces (c :: (cs ++ t)) = eatSpaces (cs ++ t) from by
      simp [eatSpaces, hsp c (List.mem_cons_self _ _)]]
    exact ih fun x hx => hsp x (List.mem_cons_of_mem _ hx)

theorem eat4Digits_inv {s r : List Char} (h : eat4Digits s = some r) :
    ∃ y, Y4ok y ∧ s = y ++ r := by
  unfold eat4Digits at h
  split at h
  case h_1 a b c d rest =>
    split at h
    case isTrue hd =>
      cases h
      simp only [Bool.and_eq_true] at hd
      exact ⟨[a, b, c, d], ⟨a, b, c, d, hd.1.1.1, hd.1.1.2, hd.1.2, hd.2, rfl⟩, rfl⟩
    case isFalse => exact absurd h (by simp)
  case h_2 => exact absurd h (by simp)

theorem eat4Digits_eval {y : List Char} (hy : Y4ok y) (t : List Char) :
    eat4Digits (y ++ t) = some t := by
  obtain ⟨a, b, c, d, ha, hb, hc, hd, rfl⟩ := hy
  simp [eat4Digits, ha, hb, hc, hd]

theorem digit_not_space {c : Char} (h : isDigitCh c = true) : isSpaceCh c = false := by
  rcases Bool.eq_false_or_eq_true (isSpaceCh c) with ht | hf
  · simp only [isSpaceCh, Bool.or_eq_true, decide_eq_true_eq] at ht
    rcases ht with ((((h1 | h1) | h1) | h1) | h1) | h1 <;> subst h1 <;> exact absurd h (by decide)
  · exact hf

theorem digit_ne {c z : Char} (h : isDigitCh c = true) (hz : isDigitCh z = false) :
    c ≠ z := by
  intro he
  rw [he] at h
  rw [h] at hz
  exact Bool.noConfusion hz

theorem midChar_ne_C {c : Char} (h : midChar c = true) : c ≠ 'C' := by
  intro he
  subst he
  exact absurd h (by decide)

/-! Scrutinee-rewriting steps for the parser's combinators. -/

theorem matchAt_of_lit {s u : List Char} (h : eatLit copyLit s = some u) :
    matchAt s = fromC (eatSpaces u) := by
  unfold matchAt; rw [h]

theorem matchAt_of_litfail {s : List Char} (h : eatLit copyLit s = none) :
    matchAt s = none := by
  unfold matchAt; rw [h]

theorem fromC_of_c {s u : List Char} (h : eatLit cMarkLit s = some u) :
    fromC s = (fromYears (eatSpaces u) <|> fromYears s) := by
  unfold fromC; rw [h]

theorem fromC_of_cfail {s : List Char} (h : eatLit cMarkLit s = none) :
    fromC s = fromYears s := by
  unfold fromC; rw [h]; rfl

theorem withRange_of_digits {s u : List Char} (h : eat4Digits s = some u) :
    withRange s = dashStep (eatSpaces u) := by
  unfold withRange; rw [h]

theorem withRange_of_nodigits {s : List Char} (h : eat4Digits s = none) :
    withRange s = none := by
  unfold withRange; rw [h]

theorem noRange_of_digits {s u : List Char} (h : eat4Digits s = some u) :
    noRange s = afterYear u := by
  unfold noRange; rw [h]

theorem noRange_of_nodigits {s : List Char} (h : eat4Digits s = none) :
    noRange s = none := by
  unfold noRange; rw [h]

theorem dashStep_cons (c : Char) (r2 : List Char) :
    dashStep (c :: r2) = if c = '-' then afterRangeDash r2 else none := rfl

theorem afterRangeDash_of_digits {r2 u2 : List Char}
    (h : eat4Digits (eatSpaces r2) = some u2) : afterRangeDash r2 = afterYear u2 := by
  unfold afterRangeDash; rw [h]

theorem afterYear_cons (c : Char) (rest : List Char) :
    afterYear (c :: rest) =
      if c = ',' then (eatSuffix (eatSpaces rest) <|> eatSuffix (c :: rest))
      else eatSuffix (c :: rest) := rfl

/-- Inversion of `(,\s*)?` + suffix: a successful tail splits as an optional
comma group, the suffix literal and the unconsumed remainder. -/
theorem afterYear_decomp {s v : List Char} (h : afterYear s = some v) :
    ∃ g5, G5ok g5 ∧ s = g5 ++ (sufLit ++ v) := by
  unfold afterYear at h
  split at h
  case h_1 c rest =>
    split at h
    case isTrue hc =>
      subst hc
      rcases orElse_eq_some h with h1 | ⟨_, h2⟩
      · obtain ⟨sp, hsp, hre⟩ := eatSpaces_decomp rest
        have hinv := eatLit_inv h1
        refine ⟨',' :: sp, Or.inr ⟨sp, hsp, rfl⟩, ?_⟩
        rw [List.cons_append, hre, hinv]
      · exact ⟨[], Or.inl rfl, by simpa using eatLit_inv h2⟩
    case isFalse hc => exact ⟨[], Or.inl rfl, by simpa using eatLit_inv h⟩
  case h_2 => exact ⟨[], Or.inl rfl, by simpa using eatLit_inv h⟩

/-- Inversion of the year part of the pattern. -/
theorem fromYears_decomp {s v : List Char} (h : fromYears s = some v) :
    ∃ g3 y4 g5, G3ok g3 ∧ Y4ok y4 ∧ G5ok g5 ∧
      s = g3 ++ (y4 ++ (g5 ++ (sufLit ++ v))) := by
  rcases orElse_eq_some h with h1 | ⟨_, h2⟩
  · unfold withRange at h1
    split at h1
    case h_1 u hu =>
      unfold dashStep at h1
      split at h1
      case h_1 c r2 heq =>
        split at h1
        case isTrue hc =>
          subst hc
          unfold afterRangeDash at h1
          split at h1
          case h_1 u2 hu2 =>
            obtain ⟨g5, hg5, hu2eq⟩ := afterYear_decomp h1
            obtain ⟨y1, hy1, hseq⟩ := eat4Digits_inv hu
            obtain ⟨spA, hspA, huA⟩ := eatSpaces_decomp u
            obtain ⟨spB, hspB, hrB⟩ := eatSpaces_decomp r2
            obtain ⟨y2, hy2, hr2eq⟩ := eat4Digits_inv hu2
            refine ⟨y1 ++ (spA ++ ('-' :: spB)), y2, g5,
              Or.inr ⟨y1, spA, spB, hy1, hspA, hspB, rfl⟩, hy2, hg5, ?_⟩
            rw [hseq, huA, heq, hrB, hr2eq, hu2eq]
            simp [List.append_assoc]
          case h_2 => exact absurd h1 (by simp)
        case isFalse hc => exact absurd h1 (by simp)
      case h_2 heq => exact absurd h1 (by simp)
    case h_2 => exact absurd h1 (by simp)
  · unfold noRange at h2
    split at h2
    case h_1 u hu =>
      obtain ⟨g5, hg5, hueq⟩ := afterYear_decomp h2
      obtain ⟨y1, hy1, hseq⟩ := eat4Digits_inv hu
      exact ⟨[], y1, g5, Or.inl rfl, hy1, hg5, by rw [hseq, hueq]; simp⟩
    case h_2 => exact absurd h2 (by simp)

/-- Inversion of `(\(c\)\s*)?` + years + suffix. -/
theorem fromC_decomp {s v : List Char} (h : fromC s = some v) :
    ∃ g2 g3 y4 g5, G2ok g2 ∧ G3ok g3 ∧ Y4ok y4 ∧ G5ok g5 ∧
      s = g2 ++ (g3 ++ (y4 ++ (g5 ++ (sufLit ++ v)))) := by
  unfold fromC at h
  rcases orElse_eq_some h with h1 | ⟨_, h2⟩
  · split at h1
    case h_1 u hu =>
      obtain ⟨sp, hsp, hueq⟩ := eatSpaces_decomp u
      obtain ⟨g3, y4, g5, hg3, hy4, hg5, heq⟩ := fromYears_decomp h1
      refine ⟨cMarkLit ++ sp, g3, y4, g5, Or.inr ⟨sp, hsp, rfl⟩, hg3, hy4, hg5, ?_⟩
      rw [eatLit_inv hu, hueq, heq]
      simp [List.append_assoc]
    case h_2 => exact absurd h1 (by simp)
  · obtain ⟨g3, y4, g5, hg3, hy4, hg5, heq⟩ := fromYears_decomp h2
    exact ⟨[], g3, y4, g5, Or.inl rfl, hg3, hy4, hg5, by simpa using heq⟩

/-- Inversion of a whole match: the consumed span always decomposes into the
`Copyright` literal, spaces, an optional `(c)` group, an optional year range,
the year, an optional comma group and the suffix literal. -/
theorem matchAt_decomp {s v : List Char} (h : matchAt s = some v) :
    ∃ sp1 g2 g3 y4 g5, AllSpace sp1 ∧ G2ok g2 ∧ G3ok g3 ∧ Y4ok y4 ∧ G5ok g5 ∧
      s = copyLit ++ (sp1 ++ (g2 ++ (g3 ++ (y4 ++ (g5 ++ (sufLit ++ v)))))) := by
  unfold matchAt at h
  split at h
  case h_1 u hu =>
    obtain ⟨sp1, hsp1, hueq⟩ := eatSpaces_decomp u
    obtain ⟨g2, g3, y4, g5, hg2, hg3, hy4, hg5, heq⟩ := fromC_decomp h
    refine ⟨sp1, g2, g3, y4, g5, hsp1, hg2, hg3, hy4, hg5, ?_⟩
    rw [eatLit_inv hu, hueq, heq]
  case h_2 => exact absurd h (by simp)

theorem headNotSpace_sufLit (t : List Char) : HeadNotSpace (sufLit ++ t) := by
  show isSpaceCh 'I' = false
  decide

theorem headNotSpace_g5 {g5 : List Char} (hg5 : G5ok g5) (t : List Char) :
    HeadNotSpace (g5 ++ (sufLit ++ t)) := by
  rcases hg5 with rfl | ⟨sp, _, rfl⟩
  · exact headNotSpace_sufLit t
  · show isSpaceCh ',' = false
    decide

theorem headNotSpace_y4 {y4 : List Char} (hy4 : Y4ok y4) (t : List Char) :
    HeadNotSpace (y4 ++ t) := by
  obtain ⟨a, b, c, d, ha, _, _, _, rfl⟩ := hy4
  show isSpaceCh a = false
  exact digit_not_space ha

theorem headNotSpace_g3 {g3 y4 : List Char} (hg3 : G3ok g3) (hy4 : Y4ok y4)
    (t : List Char) : HeadNotSpace (g3 ++ (y4 ++ t)) := by
  rcases hg3 with rfl | ⟨y, spA, spB, hy, _, _, rfl⟩
  · exact headNotSpace_y4 hy4 t
  · obtain ⟨a, b, c, d, ha, _, _, _, rfl⟩ := hy
    show isSpaceCh a = false
    exact digit_not_space ha

theorem headNotSpace_g2 {g2 g3 y4 : List Char} (hg2 : G2ok g2) (hg3 : G3ok g3)
    (hy4 : Y4ok y4) (t : List Char) : HeadNotSpace (g2 ++ (g3 ++ (y4 ++ t))) := by
  rcases hg2 with rfl | ⟨sp, _, rfl⟩
  · exact headNotSpace_g3 hg3 hy4 t
  · show isSpaceCh '(' = false
    decide

/-- Replaying the tail of a match behind any new remainder `w`. -/
theorem afterYear_replay {g5 : List Char} (hg5 : G5ok g5) (w : List Char) :
    afterYear (g5 ++ (sufLit ++ w)) = some w := by
  rcases hg5 with rfl | ⟨sp, hsp, rfl⟩
  · have hstep : afterYear (sufLit ++ w) = eatSuffix (sufLit ++ w) := by
      rw [show sufLit ++ w =
        'I' :: ("nsyde Software Corp. All Rights Reserved.".data ++ w) from rfl]
      rw [afterYear_cons, if_neg (by decide)]
    rw [List.nil_append, hstep]
    exact eatLit_self sufLit w
  · rw [show (',' :: sp) ++ (sufLit ++ w) = ',' :: (sp ++ (sufLit ++ w)) from rfl]
    rw [afterYear_cons, if_pos rfl]
    rw [eatSpaces_append hsp (headNotSpace_sufLit w)]
    rw [show eatSuffix (sufLit ++ w) = some w from eatLit_self sufLit w]
    rfl

theorem fromYears_replay {g3 y4 g5 : List Char} (hg3 : G3ok g3) (hy4 : Y4ok y4)
    (hg5 : G5ok g5) (w : List Char) :
    fromYears (g3 ++ (y4 ++ (g5 ++ (sufLit ++ w)))) = some w := by
  rcases hg3 with rfl | ⟨y, spA, spB, hy, hspA, hspB, rfl⟩
  · rw [List.nil_append]
    have hwr : withRange (y4 ++ (g5 ++ (sufLit ++ w))) = none := by
      rw [withRange_of_digits (eat4Digits_eval hy4 _)]
      rw [eatSpaces_id (headNotSpace_g5 hg5 w)]
      rcases hg5 with rfl | ⟨sp, _, rfl⟩
      · rw [show ([] : List Char) ++ (sufLit ++ w) =
          'I' :: ("nsyde Software Corp. All Rights Reserved.".data ++ w) from rfl]
        rw [dashStep_cons, if_neg (by decide)]
      · rw [show (',' :: sp) ++ (sufLit ++ w) = ',' :: (sp ++ (sufLit ++ w)) from rfl]
        rw [dashStep_cons, if_neg (by decide)]
    have hnr : noRange (y4 ++ (g5 ++ (sufLit ++ w))) = some w := by
      rw [noRange_of_digits (eat4Digits_eval hy4 _)]
      exact afterYear_replay hg5 w
    unfold fromYears
    rw [hwr, hnr]
    rfl
  · have harg : (y ++ (spA ++ ('-' :: spB))) ++ (y4 ++ (g5 ++ (sufLit ++ w)))
        = y ++ (spA ++ ('-' :: (spB ++ (y4 ++ (g5 ++ (sufLit ++ w)))))) := by
      simp [List.append_assoc]
    rw [harg]
    have hwr : withRange (y ++ (spA ++ ('-' :: (spB ++ (y4 ++ (g5 ++ (sufLit ++ w)))))))
        = some w := by
      rw [withRange_of_digits (eat4Digits_eval hy _)]
      rw [eatSpaces_append hspA (by show isSpaceCh '-' = false; decide)]
      rw [dashStep_cons, if_pos rfl]
      have hdig2 : eat4Digits (eatSpaces (spB ++ (y4 ++ (g5 ++ (sufLit ++ w)))))
          = some (g5 ++ (sufLit ++ w)) := by
        rw [eatSpaces_append hspB (headNotSpace_y4 hy4 _)]
        exact eat4Digits_eval hy4 _
      rw [afterRangeDash_of_digits hdig2]
      exact afterYear_replay hg5 w
    unfold fromYears
    rw [hwr]
    rfl

theorem fromC_replay {g2 g3 y4 g5 : List Char} (hg2 : G2ok g2) (hg3 : G3ok g3)
    (hy4 : Y4ok y4) (hg5 : G5ok g5) (w : List Char) :
    fromC (g2 ++ (g3 ++ (y4 ++ (g5 ++ (sufLit ++ w))))) = some w := by
  rcases hg2 with rfl | ⟨sp, hsp, rfl⟩
  · rw [List.nil_append]
    have hfail : eatLit cMarkLit (g3 ++ (y4 ++ (g5 ++ (sufLit ++ w)))) = none := by
      rcases hg3 with rfl | ⟨y, spA, spB, hy, _, _, rfl⟩
      · obtain ⟨a, b, c, d, ha, _, _, _, rfl⟩ := hy4
        rw [List.nil_append]
        rw [show ([a, b, c, d] ++ (g5 ++ (sufLit ++ w)))
          = a :: ([b, c, d] ++ (g5 ++ (sufLit ++ w))) from rfl]
        rw [show cMarkLit = '(' :: "c)".data from rfl]
        rw [eatLit_cons, if_neg (digit_ne ha (by decide))]
      · obtain ⟨a, b, c, d, ha, _, _, _, rfl⟩ := hy
        rw [show (([a, b, c, d] ++ (spA ++ ('-' :: spB))) ++ (y4 ++ (g5 ++ (sufLit ++ w))))
          = a :: (([b, c, d] ++ (spA ++ ('-' :: spB))) ++ (y4 ++ (g5 ++ (sufLit ++ w)))) from rfl]
        rw [show cMarkLit = '(' :: "c)".data from rfl]
        rw [eatLit_cons, if_neg (digit_ne ha (by decide))]
    rw [fromC_of_cfail hfail]
    exact fromYears_replay hg3 hy4 hg5 w
  · have harg : (cMarkLit ++ sp) ++ (g3 ++ (y4 ++ (g5 ++ (sufLit ++ w))))
        = cMarkLit ++ (sp ++ (g3 ++ (y4 ++ (g5 ++ (sufLit ++ w))))) := by
      simp [List.append_assoc]
    rw [harg]
    rw [fromC_of_c (eatLit_self cMarkLit _)]
    rw [eatSpaces_append hsp (headNotSpace_g3 hg3 hy4 _)]
    rw [fromYears_replay hg3 hy4 hg5 w]
    rfl

/-- A decomposed match replays at any new remainder: matching is determined by
the consumed span alone. -/
theorem matchAt_replay {sp1 g2 g3 y4 g5 : List Char} (hsp1 : AllSpace sp1)
    (hg2 : G2ok g2) (hg3 : G3ok g3) (hy4 : Y4ok y4) (hg5 : G5ok g5) (w : List Char) :
    matchAt (copyLit ++ (sp1 ++ (g2 ++ (g3 ++ (y4 ++ (g5 ++ (sufLit ++ w)))))))
      = some w := by
  rw [matchAt_of_lit (eatLit_self copyLit _)]
  rw [eatSpaces_append hsp1 (headNotSpace_g2 hg2 hg3 hy4 _)]
  exact fromC_replay hg2 hg3 hy4 hg5 w

/-- A suffix of an append is a suffix of the right part, or a nonempty suffix
of the left part glued to the whole right part. -/
theorem suffix_append_cases {α : Type} {E X Y : List α} (h : E <:+ X ++ Y) :
    E <:+ Y ∨ ∃ E1, E1 <:+ X ∧ E1 ≠ [] ∧ E = E1 ++ Y := by
  obtain ⟨p, hp⟩ := h
  by_cases hl : X.length ≤ p.length
  · left
    have hXp : X <+: p :=
      List.prefix_of_prefix_length_le ⟨Y, rfl⟩ ⟨E, hp⟩ hl
    obtain ⟨q, rfl⟩ := hXp
    have hq : q ++ E = Y := by
      have h2 := hp
      rw [List.append_assoc] at h2
      exact List.append_cancel_left h2
    exact ⟨q, hq⟩
  · right
    push_neg at hl
    have hpX : p <+: X :=
      List.prefix_of_prefix_length_le ⟨E, hp⟩ ⟨Y, rfl⟩ (le_of_lt hl)
    obtain ⟨E1, rfl⟩ := hpX
    refine ⟨E1, ⟨p, rfl⟩, ?_, ?_⟩
    · intro he
      subst he
      simp at hl
    · have h2 := hp
      rw [List.append_assoc] at h2
      exact List.append_cancel_left h2

/-- The only suffix of `Copyright` that starts with `C` is the whole literal. -/
theorem copyLit_suffix_headC :
    ∀ x ∈ copyLit.tails, x.head? = some 'C' → x = copyLit := by decide

/-- The only suffix of the company literal that starts with `C` is
`Corp. All Rights Reserved.`. -/
theorem sufLit_suffix_headC :
    ∀ x ∈ sufLit.tails, x.head? = some 'C' →
      x = "Corp. All Rights Reserved.".data := by decide

theorem allSpace_midChar {sp : List Char} (hsp : AllSpace sp) :
    ∀ c ∈ sp, midChar c = true :=
  fun c hc => by simp [midChar, hsp c hc]

theorem g2_midChar {g2 : List Char} (hg2 : G2ok g2) : ∀ c ∈ g2, midChar c = true := by
  rcases hg2 with rfl | ⟨sp, hsp, rfl⟩
  · intro c hc; cases hc
  · intro c hc
    rcases List.mem_append.mp hc with hc | hc
    · exact (by decide : ∀ c ∈ cMarkLit, midChar c = true) c hc
    · simp [midChar, hsp c hc]

theorem y4_midChar {y4 : List Char} (hy4 : Y4ok y4) : ∀ c ∈ y4, midChar c = true := by
  obtain ⟨a, b, c, d, ha, hb, hc, hd, rfl⟩ := hy4
  intro x hx
  rcases List.mem_cons.mp hx with rfl | hx
  · simp [midChar, ha]
  rcases List.mem_cons.mp hx with rfl | hx
  · simp [midChar, hb]
  rcases List.mem_cons.mp hx with rfl | hx
  · simp [midChar, hc]
  rcases List.mem_cons.mp hx with rfl | hx
  · simp [midChar, hd]
  · cases hx

theorem g3_midChar {g3 : List Char} (hg3 : G3ok g3) : ∀ c ∈ g3, midChar c = true := by
  rcases hg3 with rfl | ⟨y, spA, spB, hy, hspA, hspB, rfl⟩
  · intro c hc; cases hc
  · intro c hc
    rcases List.mem_append.mp hc with hc | hc
    · exact y4_midChar hy c hc
    rcases List.mem_append.mp hc with hc | hc
    · simp [midChar, hspA c hc]
    rcases List.mem_cons.mp hc with rfl | hc
    · decide
    · simp [midChar, hspB c hc]

theorem g5_midChar {g5 : List Char} (hg5 : G5ok g5) : ∀ c ∈ g5, midChar c = true := by
  rcases hg5 with rfl | ⟨sp, hsp, rfl⟩
  · intro c hc; cases hc
  · intro c hc
    rcases List.mem_cons.mp hc with rfl | hc
    · decide
    · simp [midChar, hsp c hc]

/-- No nonempty suffix of a middle segment can start a `C`. -/
theorem suffix_mid_head {seg rest E : List Char}
    (hmid : ∀ c ∈ seg, midChar c = true)
    (h : ∃ E1, E1 <:+ seg ∧ E1 ≠ [] ∧ E = E1 ++ rest)
    (hhead : E.head? = some 'C') : False := by
  obtain ⟨E1, hsuf, hne, rfl⟩ := h
  cases E1 with
  | nil => exact hne rfl
  | cons e E1' =>
    have he : e = 'C' := by simpa using hhead
    have hmem : e ∈ seg := hsuf.subset (List.mem_cons_self _ _)
    exact midChar_ne_C (hmid e hmem) he

/-- A suffix of a consumed match that starts with `C` is the whole consumed
span or the `Corp. All Rights Reserved.` tail of the suffix literal. -/
theorem consumed_suffix_C {sp1 g2 g3 y4 g5 E : List Char}
    (hsp1 : AllSpace sp1) (hg2 : G2ok g2) (hg3 : G3ok g3) (hy4 : Y4ok y4)
    (hg5 : G5ok g5)
    (hE : E <:+ copyLit ++ (sp1 ++ (g2 ++ (g3 ++ (y4 ++ (g5 ++ sufLit))))))
    (hhead : E.head? = some 'C') :
    E = copyLit ++ (sp1 ++ (g2 ++ (g3 ++ (y4 ++ (g5 ++ sufLit))))) ∨
      E = "Corp. All Rights Reserved.".data := by
  rcases suffix_append_cases hE with h1 | h1
  · rcases suffix_append_cases h1 with h2 | h2
    · rcases suffix_append_cases h2 with h3 | h3
      · rcases suffix_append_cases h3 with h4 | h4
        · rcases suffix_append_cases h4 with h5 | h5
          · rcases suffix_append_cases h5 with h6 | h6
            · right
              exact sufLit_suffix_headC E ((List.mem_tails _ _).mpr h6) hhead
            · exact (suffix_mid_head (g5_midChar hg5) h6 hhead).elim
          · exact (suffix_mid_head (y4_midChar hy4) h5 hhead).elim
        · exact (suffix_mid_head (g3_midChar hg3) h4 hhead).elim
      · exact (suffix_mid_head (g2_midChar hg2) h3 hhead).elim
    · exact (suffix_mid_head (allSpace_midChar hsp1) h2 hhead).elim
  · obtain ⟨E1, hsuf, hne, rfl⟩ := h1
    left
    have hE1 : E1 = copyLit := by
      cases E1 with
      | nil => exact absurd rfl hne
      | cons e E1' =>
        have he : e = 'C' := by simpa using hhead
        exact copyLit_suffix_headC _ ((List.mem_tails _ _).mpr hsuf) (by simp [he])
    rw [hE1]

/-- Every scan splits into a match-free prefix and, possibly, a first match. -/
theorem subScan_structure (R s : List Char) :
    subScan R s = s ∨
      ∃ k rest rem, s = k ++ rest ∧ matchAt rest = some rem ∧
        subScan R s = k ++ (R ++ subScan R rem) := by
  generalize hn : s.length = n
  induction n using Nat.strong_induction_on generalizing s with
  | _ n ih =>
    cases hm : matchAt s with
    | some rem =>
      right
      exact ⟨[], s, rem, rfl, hm, by rw [subScan_of_match hm]; rfl⟩
    | none =>
      cases s with
      | nil => exact Or.inl (subScan_nil R)
      | cons c cs =>
        rcases ih cs.length (by rw [← hn]; simp) cs rfl with h1 | ⟨k, rest, rem, he, hr, hs⟩
        · exact Or.inl (by rw [subScan_of_nomatch_cons hm, h1])
        · right
          refine ⟨c :: k, rest, rem, by rw [List.cons_append, ← he], hr, ?_⟩
          rw [subScan_of_nomatch_cons hm, hs]
          rfl

/-- Key step: replacing later matches by `R` (which begins `Cop…`) cannot
create a match at a position that had none, because a match reaching into an
`R`-copy would have to cross into its initial `C` through characters that no
pattern token allows. -/
theorem keyLemma {R : List Char} (hR : ∃ t, R = 'C' :: ('o' :: ('p' :: t)))
    {c : Char} {s' : List Char} (h : matchAt (c :: s') = none) :
    matchAt (c :: subScan R s') = none := by
  cases hm : matchAt (c :: subScan R s') with
  | none => rfl
  | some v =>
    exfalso
    obtain ⟨sp1, g2, g3, y4, g5, hsp1, hg2, hg3, hy4, hg5, heq⟩ := matchAt_decomp hm
    rcases subScan_structure R s' with hss | ⟨k, rest, rem, hs'eq, hrest, hscan⟩
    · rw [hss] at hm
      rw [h] at hm
      cases hm
    · set consumed := copyLit ++ (sp1 ++ (g2 ++ (g3 ++ (y4 ++ (g5 ++ sufLit))))) with hcon
      have heq' : c :: subScan R s' = consumed ++ v := by
        rw [heq, hcon]
        simp [List.append_assoc]
      have hout : c :: subScan R s' = (c :: k) ++ (R ++ subScan R rem) := by
        rw [hscan]
        rfl
      by_cases hlen : consumed.length ≤ (c :: k).length
      · have hpc : consumed <+: (c :: k) :=
          List.prefix_of_prefix_length_le ⟨v, heq'.symm⟩
            ⟨R ++ subScan R rem, hout.symm⟩ hlen
        have hcs : c :: s' = (c :: k) ++ rest := by
          rw [hs'eq]
          rfl
        have hps : consumed <+: (c :: s') := by
          rw [hcs]
          exact hpc.trans (List.prefix_append _ _)
        obtain ⟨w, hw⟩ := hps
        have hmm : matchAt (c :: s') = some w := by
          rw [← hw]
          have hassoc : consumed ++ w
              = copyLit ++ (sp1 ++ (g2 ++ (g3 ++ (y4 ++ (g5 ++ (sufLit ++ w)))))) := by
            rw [hcon]
            simp [List.append_assoc]
          rw [hassoc]
          exact matchAt_replay hsp1 hg2 hg3 hy4 hg5 w
        rw [h] at hmm
        cases hmm
      · push_neg at hlen
        have hpk : (c :: k) <+: consumed :=
          List.prefix_of_prefix_length_le ⟨R ++ subScan R rem, hout.symm⟩
            ⟨v, heq'.symm⟩ (le_of_lt hlen)
        obtain ⟨E, hEdef⟩ := hpk
        have hEne : E ≠ [] := by
          intro hE0
          rw [hE0, List.append_nil] at hEdef
          rw [hEdef] at hlen
          exact lt_irrefl _ hlen
        have hEv : E ++ v = R ++ subScan R rem := by
          have h1 : (c :: k) ++ (E ++ v) = (c :: k) ++ (R ++ subScan R rem) := by
            rw [← List.append_assoc, hEdef, ← heq', hout]
          exact List.append_cancel_left h1
        have hEsuf : E <:+ consumed := ⟨c :: k, hEdef⟩
        have hEhead : E.head? = some 'C' := by
          obtain ⟨t, hRd⟩ := hR
          cases E with
          | nil => exact absurd rfl hEne
          | cons e E' =>
            have hhd := congrArg List.head? hEv
            rw [hRd] at hhd
            simp at hhd
            simp [hhd]
        rcases consumed_suffix_C hsp1 hg2 hg3 hy4 hg5 (hcon ▸ hEsuf) hEhead
          with hfull | hcorp
        · have hfull' : E = consumed := by rw [hfull, hcon]
          rw [hfull'] at hEdef
          have hlen2 := congrArg List.length hEdef
          simp [List.length_append] at hlen2
          omega
        · obtain ⟨t, hRd⟩ := hR
          rw [hcorp, hRd] at hEv
          rw [show ("Corp. All Rights Reserved.".data ++ v)
            = 'C' :: ('o' :: ('r' :: ("p. All Rights Reserved.".data ++ v))) from rfl] at hEv
          rw [List.cons_append, List.cons_append, List.cons_append] at hEv
          injection hEv with h1 hEv
          injection hEv with h2 hEv
          injection hEv with h3 hEv
          exact absurd h3 (by decide)

theorem eatSpaces_cons_space {c : Char} (hc : isSpaceCh c = true) (cs : List Char) :
    eatSpaces (c :: cs) = eatSpaces cs := by
  simp [eatSpaces, hc]

theorem matchAt_headNotC {c : Char} (hc : ¬ c = 'C') (cs : List Char) :
    matchAt (c :: cs) = none := by
  apply matchAt_of_litfail
  rw [show copyLit = 'C' :: ('o' :: ('p' :: "yright".data)) from rfl]
  rw [eatLit_cons, if_neg hc]

theorem corpTail_nomatch (t : List Char) :
    matchAt ("Corp. All Rights Reserved.".data ++ t) = none := by
  apply matchAt_of_litfail
  rw [show ("Corp. All Rights Reserved.".data ++ t)
    = 'C' :: ('o' :: ('r' :: ("p. All Rights Reserved.".data ++ t))) from rfl]
  rw [show copyLit = 'C' :: ('o' :: ('p' :: "yright".data)) from rfl]
  rw [eatLit_cons, if_pos rfl, eatLit_cons, if_pos rfl, eatLit_cons, if_neg (by decide)]

/-- Both replacement formats begin `Cop…`. -/
theorem replChars_head (u : Bool) (ys : List Char) :
    ∃ t, replChars u ys = 'C' :: ('o' :: ('p' :: t)) := by
  cases u <;> exact ⟨_, rfl⟩

theorem allSpace_single_space : AllSpace [' '] := by
  intro c hc
  rw [List.mem_singleton.mp hc]
  decide

/-- The old-format replacement is itself a match, consuming exactly itself. -/
theorem replOld_matchAt {ys : List Char} (hy : Y4ok ys) (t : List Char) :
    matchAt (replChars false ys ++ t) = some t := by
  have harg : replChars false ys ++ t
      = copyLit ++ ([' '] ++ ((cMarkLit ++ [' '])
          ++ (([] : List Char) ++ (ys ++ ([',', ' '] ++ (sufLit ++ t)))))) := by
    simp [replChars, List.append_assoc]
  rw [harg]
  exact matchAt_replay allSpace_single_space (Or.inr ⟨[' '], allSpace_single_space, rfl⟩)
    (Or.inl rfl) hy (Or.inr ⟨[' '], allSpace_single_space, rfl⟩) t

/-- The new-format replacement does not match at its own start: the space
between the year and the suffix fits no pattern token. -/
theorem replNew_matchAt_none {ys : List Char} (hy : Y4ok ys) (t : List Char) :
    matchAt (replChars true ys ++ t) = none := by
  have harg : replChars true ys ++ t
      = copyLit ++ ([' '] ++ (ys ++ ([' '] ++ (sufLit ++ t)))) := by
    simp [replChars, List.append_assoc]
  rw [harg]
  rw [matchAt_of_lit (eatLit_self copyLit _)]
  rw [show ([' '] ++ (ys ++ ([' '] ++ (sufLit ++ t))))
    = ' ' :: (ys ++ ([' '] ++ (sufLit ++ t))) from rfl]
  rw [eatSpaces_cons_space (by decide)]
  rw [eatSpaces_id (headNotSpace_y4 hy _)]
  have hcfail : eatLit cMarkLit (ys ++ ([' '] ++ (sufLit ++ t))) = none := by
    obtain ⟨a, b, c, d, ha, _, _, _, rfl⟩ := hy
    rw [show ([a, b, c, d] ++ ([' '] ++ (sufLit ++ t)))
      = a :: ([b, c, d] ++ ([' '] ++ (sufLit ++ t))) from rfl]
    rw [show cMarkLit = '(' :: "c)".data from rfl]
    rw [eatLit_cons, if_neg (digit_ne ha (by decide))]
  rw [fromC_of_cfail hcfail]
  have hwr : withRange (ys ++ ([' '] ++ (sufLit ++ t))) = none := by
    rw [withRange_of_digits (eat4Digits_eval hy _)]
    rw [show ([' '] ++ (sufLit ++ t)) = ' ' :: (sufLit ++ t) from rfl]
    rw [eatSpaces_cons_space (by decide)]
    rw [eatSpaces_id (headNotSpace_sufLit t)]
    rw [show sufLit ++ t
      = 'I' :: ("nsyde Software Corp. All Rights Reserved.".data ++ t) from rfl]
    rw [dashStep_cons, if_neg (by decide)]
  have hnr : noRange (ys ++ ([' '] ++ (sufLit ++ t))) = none := by
    rw [noRange_of_digits (eat4Digits_eval hy _)]
    rw [show ([' '] ++ (sufLit ++ t)) = ' ' :: (sufLit ++ t) from rfl]
    rw [afterYear_cons, if_neg (by decide)]
    unfold eatSuffix
    rw [show sufLit = 'I' :: "nsyde Software Corp. All Rights Reserved.".data from rfl]
    rw [eatLit_cons, if_neg (by decide)]
  unfold fromYears
  rw [hwr, hnr]
  rfl

/-- No position inside the new-format replacement starts a match, whatever
follows it. -/
theorem replNew_suffix_nomatch {ys : List Char} (hy : Y4ok ys) :
    ∀ E, E <:+ replChars true ys → E ≠ [] → ∀ t, matchAt (E ++ t) = none := by
  intro E hE hne t
  have hshape : replChars true ys = copyLit ++ ([' '] ++ (ys ++ ([' '] ++ sufLit))) := rfl
  rw [hshape] at hE
  rcases suffix_append_cases hE with h1 | h1
  · rcases suffix_append_cases h1 with h2 | h2
    · rcases suffix_append_cases h2 with h3 | h3
      · rcases suffix_append_cases h3 with h4 | h4
        · cases E with
          | nil => exact absurd rfl hne
          | cons e E' =>
            by_cases he : e = 'C'
            · have hcorp := sufLit_suffix_headC _ ((List.mem_tails _ _).mpr h4)
                (by simp [he])
              rw [hcorp]
              exact corpTail_nomatch t
            · rw [List.cons_append]
              exact matchAt_headNotC he _
        · obtain ⟨E1, hsuf, hne1, rfl⟩ := h4
          have hE1 : E1 = [' '] := by
            rcases List.suffix_cons_iff.mp hsuf with h | h
            · exact h
            · exact absurd (List.suffix_nil.mp h) hne1
          subst hE1
          rw [show (([' '] ++ sufLit) ++ t) = ' ' :: (sufLit ++ t) by simp]
          exact matchAt_headNotC (by decide) _
      · obtain ⟨E1, hsuf, hne1, rfl⟩ := h3
        cases E1 with
        | nil => exact absurd rfl hne1
        | cons e E1' =>
          obtain ⟨a, b, c, d, ha, hb, hc, hd, rfl⟩ := hy
          have hmem : e ∈ [a, b, c, d] := hsuf.subset (List.mem_cons_self _ _)
          have hdig : isDigitCh e = true := by
            rcases List.mem_cons.mp hmem with rfl | hmem
            · exact ha
            rcases List.mem_cons.mp hmem with rfl | hmem
            · exact hb
            rcases List.mem_cons.mp hmem with rfl | hmem
            · exact hc
            rcases List.mem_cons.mp hmem with rfl | hmem
            · exact hd
            · cases hmem
          rw [List.cons_append, List.cons_append]
          exact matchAt_headNotC (digit_ne hdig (by decide)) _
    · obtain ⟨E1, hsuf, hne1, rfl⟩ := h2
      have hE1 : E1 = [' '] := by
        rcases List.suffix_cons_iff.mp hsuf with h | h
        · exact h
        · exact absurd (List.suffix_nil.mp h) hne1
      subst hE1
      rw [show (([' '] ++ (ys ++ ([' '] ++ sufLit))) ++ t)
        = ' ' :: ((ys ++ ([' '] ++ sufLit)) ++ t) by simp]
      exact matchAt_headNotC (by decide) _
  · obtain ⟨E1, hsuf, hne1, rfl⟩ := h1
    cases E1 with
    | nil => exact absurd rfl hne1
    | cons e E1' =>
      by_cases he : e = 'C'
      · have hfull := copyLit_suffix_headC _ ((List.mem_tails _ _).mpr hsuf)
          (by simp [he])
        rw [hfull, ← hshape]
        exact replNew_matchAt_none hy t
      · rw [List.cons_append, List.cons_append]
        exact matchAt_headNotC he _

/-- Scanning past a segment none of whose positions can start a match. -/
theorem subScan_append_keep {R L : List Char}
    (hL : ∀ E, E <:+ L → E ≠ [] → ∀ t, matchAt (E ++ t) = none) (t : List Char) :
    subScan R (L ++ t) = L ++ subScan R t := by
  induction L with
  | nil => rw [List.nil_append, List.nil_append]
  | cons c cs ih =>
    rw [List.cons_append]
    have h0 : matchAt (c :: (cs ++ t)) = none := by
      have h1 := hL (c :: cs) List.suffix_rfl (by simp) t
      rwa [List.cons_append] at h1
    rw [subScan_of_nomatch_cons h0]
    rw [ih fun E hE hne t' => hL E (hE.trans (List.suffix_cons c cs)) hne t']
    rw [List.cons_append]

/-- Idempotence of the scan for both replacement formats, provided the year
renders as four digits. -/
theorem subScan_idem {u : Bool} {ys : List Char} (hy : Y4ok ys) (s : List Char) :
    subScan (replChars u ys) (subScan (replChars u ys) s)
      = subScan (replChars u ys) s := by
  generalize hn : s.length = n
  induction n using Nat.strong_induction_on generalizing s with
  | _ n ih =>
    cases hm : matchAt s with
    | some rem =>
      rw [subScan_of_match hm]
      have hrem := ih rem.length (hn ▸ matchAt_length hm) rem rfl
      cases u with
      | false =>
        rw [subScan_of_match (replOld_matchAt hy _)]
        rw [hrem]
      | true =>
        rw [subScan_append_keep (replNew_suffix_nomatch hy)]
        rw [hrem]
    | none =>
      cases s with
      | nil => rw [subScan_nil, subScan_nil]
      | cons c cs =>
        rw [subScan_of_nomatch_cons hm]
        have hkey : matchAt (c :: subScan (replChars u ys) cs) = none :=
          keyLemma (replChars_head u ys) hm
        rw [subScan_of_nomatch_cons hkey]
        have hlt : cs.length < n := by rw [← hn]; simp
        rw [ih cs.length hlt cs rfl]

theorem writeStore_same (st : Store) (sd : Side) (r : RelFile) (c : Bytes) :
    writeStore st sd r c (sd, r) = some c := by simp [writeStore]

theorem writeStore_other (st : Store) {sd : Side} {r : RelFile} (c : Bytes)
    {q : Side × RelFile} (h : q ≠ (sd, r)) : writeStore st sd r c q = st q := by
  simp [writeStore, h]

theorem writeStore_congr {q : Side × RelFile} {st st' : Store} (h : st q = st' q)
    (sd : Side) (r : RelFile) (c : Bytes) :
    writeStore st sd r c q = writeStore st' sd r c q := by
  by_cases hq : q = (sd, r)
  · subst hq; simp [writeStore]
  · simp [writeStore, hq, h]

theorem pass1Step_congr {B : Listing} {ed ef ee : List String} {u n : Bool} {y : Nat}
    (e : RelFile × Bytes) {q : Side × RelFile} {st st' : Store} (h : st q = st' q) :
    pass1Step B ed ef ee u n y st e q = pass1Step B ed ef ee u n y st' e q := by
  by_cases hx : should_exclude (relDirStr e.1.1) e.1.2 ed ef ee = true
  · simp [pass1Step, hx, h]
  · cases hb : lookupFile B e.1 with
    | none =>
      simp only [pass1Step, hx, hb, Bool.false_eq_true, if_false]
      exact writeStore_congr h _ _ _
    | some cb =>
      by_cases hcb : cb = e.2
      · simp [pass1Step, hx, hb, hcb, h]
      · simp only [pass1Step, hx, hb, hcb, Bool.false_eq_true, if_false]
        exact writeStore_congr (writeStore_congr h _ _ _) _ _ _

theorem pass1Step_other {B : Listing} {ed ef ee : List String} {u n : Bool} {y : Nat}
    (st : Store) (e : RelFile × Bytes) {sd : Side} {r : RelFile} (h : e.1 ≠ r) :
    pass1Step B ed ef ee u n y st e (sd, r) = st (sd, r) := by
  have hq : ∀ sd' : Side, ((sd, r) : Side × RelFile) ≠ (sd', e.1) := by
    intro sd' heq
    exact h (congrArg Prod.snd heq).symm
  by_cases hx : should_exclude (relDirStr e.1.1) e.1.2 ed ef ee = true
  · simp [pass1Step, hx]
  · cases hb : lookupFile B e.1 with
    | none => simp [pass1Step, hx, hb, writeStore, hq Side.original]
    | some cb =>
      by_cases hcb : cb = e.2
      · simp [pass1Step, hx, hb, hcb]
      · simp [pass1Step, hx, hb, hcb, writeStore, hq Side.original, hq Side.modified]

theorem pass2Step_other {A : Listing} {ed ef ee : List String} {u n : Bool} {y : Nat}
    (st : Store) (e : RelFile × Bytes) {sd : Side} {r : RelFile} (h : e.1 ≠ r) :
    pass2Step A ed ef ee u n y st e (sd, r) = st (sd, r) := by
  have hq : ((sd, r) : Side × RelFile) ≠ (Side.modified, e.1) := by
    intro heq
    exact h (congrArg Prod.snd heq).symm
  by_cases hx : should_exclude (relDirStr e.1.1) e.1.2 ed ef ee = true
  · simp [pass2Step, hx]
  · cases hb : lookupFile A e.1 with
    | none => simp [pass2Step, hx, hb, writeStore, hq]
    | some c => simp [pass2Step, hx, hb]

theorem pass2Step_congr {A : Listing} {ed ef ee : List String} {u n : Bool} {y : Nat}
    (e : RelFile × Bytes) {q : Side × RelFile} {st st' : Store} (h : st q = st' q) :
    pass2Step A ed ef ee u n y st e q = pass2Step A ed ef ee u n y st' e q := by
  by_cases hx : should_exclude (relDirStr e.1.1) e.1.2 ed ef ee = true
  · simp [pass2Step, hx, h]
  · cases hb : lookupFile A e.1 with
    | none =>
      simp only [pass2Step, hx, hb, Bool.false_eq_true, if_false]
      exact writeStore_congr h _ _ _
    | some c => simp [pass2Step, hx, hb, h]

theorem pass2Step_original {A : Listing} {ed ef ee : List String} {u n : Bool} {y : Nat}
    (st : Store) (e : RelFile × Bytes) (r : RelFile) :
    pass2Step A ed ef ee u n y st e (Side.original, r) = st (Side.original, r) := by
  by_cases hx : should_exclude (relDirStr e.1.1) e.1.2 ed ef ee = true
  · simp [pass2Step, hx]
  · cases hb : lookupFile A e.1 with
    | none => simp [pass2Step, hx, hb, writeStore]
    | some c => simp [pass2Step, hx, hb]

theorem foldl_pass1_other {B : Listing} {ed ef ee : List String} {u n : Bool} {y : Nat}
    (L : Listing) (st : Store) {sd : Side} {r : RelFile} (h : ∀ e ∈ L, e.1 ≠ r) :
    L.foldl (pass1Step B ed ef ee u n y) st (sd, r) = st (sd, r) := by
  induction L generalizing st with
  | nil => rfl
  | cons e L ih =>
    rw [List.foldl_cons, ih _ fun x hx => h x (List.mem_cons_of_mem _ hx)]
    exact pass1Step_other st e (h e (List.mem_cons_self _ _))

theorem foldl_pass2_other {A : Listing} {ed ef ee : List String} {u n : Bool} {y : Nat}
    (L : Listing) (st : Store) {sd : Side} {r : RelFile} (h : ∀ e ∈ L, e.1 ≠ r) :
    L.foldl (pass2Step A ed ef ee u n y) st (sd, r) = st (sd, r) := by
  induction L generalizing st with
  | nil => rfl
  | cons e L ih =>
    rw [List.foldl_cons, ih _ fun x hx => h x (List.mem_cons_of_mem _ hx)]
    exact pass2Step_other st e (h e (List.mem_cons_self _ _))

theorem foldl_pass2_original {A : Listing} {ed ef ee : List String} {u n : Bool} {y : Nat}
    (L : Listing) (st : Store) (r : RelFile) :
    L.foldl (pass2Step A ed ef ee u n y) st (Side.original, r) = st (Side.original, r) := by
  induction L generalizing st with
  | nil => rfl
  | cons e L ih => rw [List.foldl_cons, ih, pass2Step_original]

theorem lookupFile_eq_none {L : Listing} {r : RelFile} :
    lookupFile L r = none ↔ ∀ e ∈ L, e.1 ≠ r := by
  simp [lookupFile, List.find?_eq_none]

theorem lookupFile_isSome_of_mem {L : Listing} {r : RelFile} {c : Bytes}
    (h : (r, c) ∈ L) : (lookupFile L r).isSome := by
  cases hf : lookupFile L r with
  | some _ => rfl
  | none => exact absurd rfl (lookupFile_eq_none.mp hf (r, c) h)

theorem foldl_pass2_keep {A : Listing} {ed ef ee : List String} {u n : Bool} {y : Nat}
    (L : Listing) (st : Store) {sd : Side} {r : RelFile}
    (hA : (lookupFile A r).isSome) :
    L.foldl (pass2Step A ed ef ee u n y) st (sd, r) = st (sd, r) := by
  induction L generalizing st with
  | nil => rfl
  | cons e L ih =>
    rw [List.foldl_cons, ih]
    by_cases hk : e.1 = r
    · by_cases hx : should_exclude (relDirStr e.1.1) e.1.2 ed ef ee = true
      · simp [pass2Step, hx]
      · cases hs : lookupFile A r with
        | none => rw [hs] at hA; cases hA
        | some c => simp [pass2Step, hx, hk, hs]
    · exact pass2Step_other st e hk

/-- Processing a listing that contains `(r, ca)` with pairwise-distinct paths
acts on the keys of `r` exactly as the single step for `(r, ca)` does. -/
theorem foldl_pass1_mem {B : Listing} {ed ef ee : List String} {u n : Bool} {y : Nat}
    {L : Listing} {r : RelFile} {ca : Bytes}
    (hnd : (L.map Prod.fst).Nodup) (hmem : (r, ca) ∈ L) (st : Store) (sd : Side) :
    L.foldl (pass1Step B ed ef ee u n y) st (sd, r) =
      pass1Step B ed ef ee u n y st (r, ca) (sd, r) := by
  induction L generalizing st with
  | nil => cases hmem
  | cons e L ih =>
    rw [List.map_cons, List.nodup_cons] at hnd
    rw [List.foldl_cons]
    by_cases hk : e.1 = r
    · have he : e = (r, ca) := by
        rcases List.mem_cons.mp hmem with h | h
        · exact h.symm
        · refine absurd ?_ hnd.1
          have hm1 := List.mem_map_of_mem Prod.fst h
          rw [hk]
          exact hm1
      subst he
      exact foldl_pass1_other L _ fun x hx hxr => hnd.1 (by
        have hm1 := List.mem_map_of_mem Prod.fst hx
        rwa [hxr] at hm1)
    · have hmem' : (r, ca) ∈ L := by
        rcases List.mem_cons.mp hmem with h | h
        · exact absurd (congrArg Prod.fst h.symm) hk
        · exact h
      rw [ih hnd.2 hmem']
      exact pass1Step_congr _ (pass1Step_other st e hk)

theorem foldl_pass2_mem {A : Listing} {ed ef ee : List String} {u n : Bool} {y : Nat}
    {L : Listing} {r : RelFile} {cb : Bytes}
    (hnd : (L.map Prod.fst).Nodup) (hmem : (r, cb) ∈ L) (st : Store) (sd : Side) :
    L.foldl (pass2Step A ed ef ee u n y) st (sd, r) =
      pass2Step A ed ef ee u n y st (r, cb) (sd, r) := by
  induction L generalizing st with
  | nil => cases hmem
  | cons e L ih =>
    rw [List.map_cons, List.nodup_cons] at hnd
    rw [List.foldl_cons]
    by_cases hk : e.1 = r
    · have he : e = (r, cb) := by
        rcases List.mem_cons.mp hmem with h | h
        · exact h.symm
        · refine absurd ?_ hnd.1
          have hm1 := List.mem_map_of_mem Prod.fst h
          rw [hk]
          exact hm1
      subst he
      exact foldl_pass2_other L _ fun x hx hxr => hnd.1 (by
        have hm1 := List.mem_map_of_mem Prod.fst hx
        rwa [hxr] at hm1)
    · have hmem' : (r, cb) ∈ L := by
        rcases List.mem_cons.mp hmem with h | h
        · exact absurd (congrArg Prod.fst h.symm) hk
        · exact h
      rw [ih hnd.2 hmem']
      exact pass2Step_congr _ (pass2Step_other st e hk)

/-- `should_exclude` as a predicate (the source's early-return chain flattened). -/
theorem should_exclude_iff (rel_path file_name : String) (ed ef ee : List String) :
    should_exclude rel_path file_name ed ef ee = true ↔
      (∃ part ∈ pySplit '/' rel_path, part ∈ ed) ∨
        file_name ∈ ef ∨ splitext_ext file_name ∈ ee := by
  simp only [should_exclude]
  split
  case isTrue h =>
    simp only [List.any_eq_true, decide_eq_true_eq] at h
    simp [h]
  case isFalse h =>
    simp only [List.any_eq_true, decide_eq_true_eq] at h
    split
    case isTrue h2 => simp [h2]
    case isFalse h2 =>
      split
      case isTrue h3 => simp [h, h2, h3]
      case isFalse h3 => simp [h, h2, h3]

/-! ### Claim theorems -/

/-- C1: for every file present at the same relative path in both trees, not
excluded, with byte-for-byte different contents, after `compare_and_extract`
both `Original/<rel>` and `Modified/<rel>` exist, and `Original/<rel>` holds
exactly the A-side bytes regardless of the `update_copyright` and new-format
settings (the theorem is quantified over both flags). -/
theorem C1_differing_file_both_outputs (A B : Listing) (r : RelFile) (ca cb : Bytes)
    (ed ef ee : List String) (u n : Bool) (y : Nat)
    (hndA : (A.map Prod.fst).Nodup)
    (ha : (r, ca) ∈ A) (hb : lookupFile B r = some cb) (hdiff : ca ≠ cb)
    (hexcl : should_exclude (relDirStr r.1) r.2 ed ef ee = false) :
    compare_and_extract A B ed ef ee u n y (Side.original, r) = some ca ∧
    ∃ m, compare_and_extract A B ed ef ee u n y (Side.modified, r) = some m := by
  have hkeep : ∀ sd : Side,
      compare_and_extract A B ed ef ee u n y (sd, r)
        = pass1Step B ed ef ee u n y emptyStore (r, ca) (sd, r) := by
    intro sd
    unfold compare_and_extract
    rw [foldl_pass2_keep _ _ (lookupFile_isSome_of_mem ha)]
    exact foldl_pass1_mem hndA ha emptyStore sd
  have hcb : ¬ (cb = ca) := fun hh => hdiff hh.symm
  constructor
  · rw [hkeep Side.original]
    simp [pass1Step, hexcl, hb, hcb, writeStore]
  · refine ⟨modifiedContent u n y cb, ?_⟩
    rw [hkeep Side.modified]
    simp [pass1Step, hexcl, hb, hcb, writeStore]

/-- Witness for C1 on a concrete pair of trees. -/
theorem C1_witness :
    compare_and_extract [(([], "foo.txt"), [104, 101])] [(([], "foo.txt"), [119])]
        [] [] [] true true 2026 (Side.original, ([], "foo.txt")) = some [104, 101] ∧
    ∃ m, compare_and_extract [(([], "foo.txt"), [104, 101])] [(([], "foo.txt"), [119])]
        [] [] [] true true 2026 (Side.modified, ([], "foo.txt")) = some m :=
  C1_differing_file_both_outputs _ _ ([], "foo.txt") _ [119] [] [] [] true true 2026
    (by decide) (by decide) (by decide) (by decide) (by decide)

/-- C2: a non-excluded file present only in tree A yields `Original/<rel>` and
no `Modified/<rel>`; one present only in tree B yields `Modified/<rel>` and no
`Original/<rel>`. -/
theorem C2_one_sided_files (A B : Listing) (ed ef ee : List String) (u n : Bool) (y : Nat)
    (hndA : (A.map Prod.fst).Nodup) (hndB : (B.map Prod.fst).Nodup) :
    (∀ r ca, (r, ca) ∈ A → lookupFile B r = none →
      should_exclude (relDirStr r.1) r.2 ed ef ee = false →
      compare_and_extract A B ed ef ee u n y (Side.original, r) = some ca ∧
      compare_and_extract A B ed ef ee u n y (Side.modified, r) = none) ∧
    (∀ r cb, (r, cb) ∈ B → lookupFile A r = none →
      should_exclude (relDirStr r.1) r.2 ed ef ee = false →
      compare_and_extract A B ed ef ee u n y (Side.modified, r)
        = some (modifiedContent u n y cb) ∧
      compare_and_extract A B ed ef ee u n y (Side.original, r) = none) := by
  constructor
  · intro r ca ha hbnone hexcl
    have hB : ∀ e ∈ B, e.1 ≠ r := lookupFile_eq_none.mp hbnone
    have hkeep : ∀ sd : Side, compare_and_extract A B ed ef ee u n y (sd, r)
        = pass1Step B ed ef ee u n y emptyStore (r, ca) (sd, r) := by
      intro sd
      unfold compare_and_extract
      rw [foldl_pass2_other _ _ hB]
      exact foldl_pass1_mem hndA ha emptyStore sd
    constructor
    · rw [hkeep Side.original]
      simp [pass1Step, hexcl, hbnone, writeStore]
    · rw [hkeep Side.modified]
      simp [pass1Step, hexcl, hbnone, writeStore, emptyStore]
  · intro r cb hbmem hanone hexcl
    have hA : ∀ e ∈ A, e.1 ≠ r := lookupFile_eq_none.mp hanone
    have hp1 : ∀ sd : Side,
        (A.foldl (pass1Step B ed ef ee u n y) emptyStore) (sd, r) = none := by
      intro sd
      rw [foldl_pass1_other _ _ hA]
      rfl
    constructor
    · unfold compare_and_extract
      rw [foldl_pass2_mem hndB hbmem _ Side.modified]
      simp [pass2Step, hexcl, hanone, writeStore]
    · unfold compare_and_extract
      rw [foldl_pass2_original]
      exact hp1 Side.original

/-- Witness for C2 on concrete one-sided trees. -/
theorem C2_witness :
    (compare_and_extract [(([], "a.txt"), [1])] [] [] [] [] false false 2026
        (Side.original, ([], "a.txt")) = some [1] ∧
      compare_and_extract [(([], "a.txt"), [1])] [] [] [] [] false false 2026
        (Side.modified, ([], "a.txt")) = none) ∧
    (compare_and_extract [] [(([], "b.txt"), [2])] [] [] [] false false 2026
        (Side.modified, ([], "b.txt")) = some (modifiedContent false false 2026 [2]) ∧
      compare_and_extract [] [(([], "b.txt"), [2])] [] [] [] false false 2026
        (Side.original, ([], "b.txt")) = none) :=
  ⟨(C2_one_sided_files [(([], "a.txt"), [1])] [] [] [] [] false false 2026
      (by decide) (by decide)).1 ([], "a.txt") [1] (by decide) (by decide) (by decide),
   (C2_one_sided_files [] [(([], "b.txt"), [2])] [] [] [] false false 2026
      (by decide) (by decide)).2 ([], "b.txt") [2] (by decide) (by decide) (by decide)⟩

/-- C3 fails as stated: the UTF-8-decodable bytes of `"a\r\nb"` contain no
match anywhere, yet the destination is not byte-identical to the source —
text-mode reading has turned `\r\n` into `\n`. -/
theorem C3_counterexample :
    utf8Decode [97, 13, 10, 98] = some ['a', '\r', '\n', 'b'] ∧
    (∀ E ∈ (['a', '\r', '\n', 'b'] : List Char).tails, matchAt E = none) ∧
    copy_with_copyright_update false 2026 [97, 13, 10, 98] ≠ [97, 13, 10, 98] := by
  refine ⟨by decide, by decide, ?_⟩
  have h1 : copy_with_copyright_update false 2026 [97, 13, 10, 98]
      = utf8Encode (copyrightRewrite false 2026 (nlTranslate ['a', '\r', '\n', 'b'])) := by
    unfold copy_with_copyright_update
    rw [show utf8Decode [97, 13, 10, 98] = some ['a', '\r', '\n', 'b'] from by decide]
  have h2 : nlTranslate ['a', '\r', '\n', 'b'] = ['a', '\n', 'b'] := by decide
  have h3 : copyrightRewrite false 2026 ['a', '\n', 'b'] = ['a', '\n', 'b'] :=
    subScan_id_of_nomatch (by decide)
  rw [h1, h2, h3]
  decide

/-- C3 (amended): for every UTF-8-decodable input, the destination bytes are
the UTF-8 encoding of the rewrite applied to the universal-newline translation
of the decoded text; that rewrite keeps every character where no match starts
and independently replaces each of the zero or more non-overlapping matches by
the selected target format carrying the current year; in particular, with zero
matches the destination is exactly the encoded translated text — byte-identical
to the source whenever the source contains no `\r`. -/
theorem C3_rewrite_locality (u : Bool) (y : Nat) (srcBytes : Bytes)
    (content : List Char) (hdec : utf8Decode srcBytes = some content) :
    copy_with_copyright_update u y srcBytes
      = utf8Encode (copyrightRewrite u y (nlTranslate content)) ∧
    RewriteSpec (replChars u (toString y).data) (nlTranslate content)
      (copyrightRewrite u y (nlTranslate content)) ∧
    ((∀ E ∈ (nlTranslate content).tails, matchAt E = none) →
      copy_with_copyright_update u y srcBytes = utf8Encode (nlTranslate content)) := by
  have h1 : copy_with_copyright_update u y srcBytes
      = utf8Encode (copyrightRewrite u y (nlTranslate content)) := by
    unfold copy_with_copyright_update
    rw [hdec]
  refine ⟨h1, subScan_rewriteSpec _ _, fun h => ?_⟩
  rw [h1]
  unfold copyrightRewrite
  rw [subScan_id_of_nomatch h]

/-- Witness for C3 (amended) on match-free CRLF bytes. -/
theorem C3_witness :
    utf8Decode [97, 13, 10, 98] = some ['a', '\r', '\n', 'b'] ∧
    (∀ E ∈ (nlTranslate ['a', '\r', '\n', 'b']).tails, matchAt E = none) ∧
    copy_with_copyright_update false 2026 [97, 13, 10, 98]
      = utf8Encode (nlTranslate ['a', '\r', '\n', 'b']) :=
  ⟨by decide, by decide,
   (C3_rewrite_locality false 2026 [97, 13, 10, 98] ['a', '\r', '\n', 'b']
     (by decide)).2.2 (by decide)⟩

/-- C5: when the source bytes do not decode as UTF-8, the rewriter's fallback
produces a destination byte-identical to the source, and the failure is not
propagated (the function is total and returns the verbatim copy). -/
theorem C5_undecodable_fallback (u : Bool) (y : Nat) (srcBytes : Bytes)
    (h : utf8Decode srcBytes = none) :
    copy_with_copyright_update u y srcBytes = srcBytes := by
  unfold copy_with_copyright_update
  rw [h]

/-- Witness for C5 on an invalid UTF-8 byte string. -/
theorem C5_witness :
    utf8Decode [255, 65] = none ∧
    copy_with_copyright_update true 2026 [255, 65] = [255, 65] :=
  ⟨by decide, C5_undecodable_fallback true 2026 [255, 65] (by decide)⟩

/-- C6 fails as stated: for `".gitignore"` the claim's extension — the
substring from the last dot inclusive — is `".gitignore"` itself and is listed
in `exclude_exts`, yet `should_exclude` returns `false`, because
`os.path.splitext` gives a leading-dot name an empty extension. -/
theorem C6_counterexample :
    ¬ (should_exclude "." ".gitignore" [] [] [".gitignore"] = true ↔
      ((∃ part ∈ pySplit '/' ".", part ∈ ([] : List String)) ∨
        ".gitignore" ∈ ([] : List String) ∨
        lastDotSubstring ".gitignore" ∈ [".gitignore"])) := by
  decide

/-- C6 (amended): `should_exclude` returns true iff some component of the
relative directory (split on the separator) is in `exclude_dirs`, or the file
name is in `exclude_files`, or the file's `os.path.splitext` extension — the
substring from the last dot only when some earlier character of the base name
is not itself a dot, the empty string otherwise — is in `exclude_exts`; as a
pure function it has no side effects. -/
theorem C6_should_exclude_characterization (rel_path file_name : String)
    (ed ef ee : List String) :
    should_exclude rel_path file_name ed ef ee = true ↔
      (∃ part ∈ pySplit '/' rel_path, part ∈ ed) ∨
        file_name ∈ ef ∨ splitext_ext file_name ∈ ee :=
  should_exclude_iff rel_path file_name ed ef ee

/-- C7 fails on the code: with no `--output-root` flag, `argparse` has already
filled `args.output_root` with the built-in default, so the
`if args.output_root is not None` merge never consults the configuration and a
configured `output_root` is silently ignored. -/
theorem C7_output_root_ignores_config :
    effectiveOutputRoot none { emptyConfig with output_root := some "./diff_output" }
        = DEFAULT_OUTPUT_ROOT ∧
      DEFAULT_OUTPUT_ROOT ≠ "./diff_output" := by
  constructor
  · rfl
  · decide

/-- C8: an existing output root whose deletion fails aborts the run with exit
status 1 before any comparison; otherwise (fresh creation, or successful
removal and recreation) the run proceeds on an empty output store, independent
of whatever stale contents the directory held. -/
theorem C8_prepare_output_dir_flow (stale : Store) (existsAtStart rmtreeSucceeds : Bool)
    (A B : Listing) (ed ef ee : List String) (u n : Bool) (y : Nat) :
    (existsAtStart = true → rmtreeSucceeds = false →
      mainRun stale existsAtStart rmtreeSucceeds A B ed ef ee u n y = Except.error 1) ∧
    (rmtreeSucceeds = true ∨ existsAtStart = false →
      mainRun stale existsAtStart rmtreeSucceeds A B ed ef ee u n y =
        Except.ok (compare_and_extract A B ed ef ee u n y)) := by
  constructor
  · intro h1 h2
    simp [mainRun, prepare_output_dir, h1, h2]
  · intro h
    rcases h with h | h <;> simp [mainRun, prepare_output_dir, h]

/-- Witness for C8: a failing removal of a stale output root exits with 1. -/
theorem C8_witness :
    mainRun (writeStore emptyStore Side.original ([], "stale") [7]) true false
      [] [] [] [] [] false false 2026 = Except.error 1 :=
  (C8_prepare_output_dir_flow (writeStore emptyStore Side.original ([], "stale") [7])
    true false [] [] [] [] [] false false 2026).1 rfl rfl

/-- C9 fails as stated: an existing but unreadable configuration file makes
`open` raise, which `load_config` does not catch, so the result is not the
empty configuration. -/
theorem C9_counterexample :
    load_config (some "./SmallVersion.yaml") (fun _ => ConfigFileState.unreadable emptyConfig)
      ≠ Except.ok emptyConfig := by
  simp [load_config]

/-- C9 (amended): a missing configuration path — a falsy path or one that does
not exist — yields the empty configuration without an error; an existing but
unreadable file instead raises. -/
theorem C9_load_config_missing (config_path : Option String) (fs : String → ConfigFileState)
    (h : config_path = none ∨ ∃ p, config_path = some p ∧ fs p = ConfigFileState.absent) :
    load_config config_path fs = Except.ok emptyConfig := by
  rcases h with h | ⟨p, hp, hfs⟩
  · rw [h]
    rfl
  · rw [hp]
    have hred : load_config (some p) fs =
        match fs p with
        | ConfigFileState.absent => Except.ok emptyConfig
        | ConfigFileState.unreadable _ => Except.error PyError.ioError
        | ConfigFileState.readable cfg => Except.ok cfg := rfl
    rw [hred, hfs]

/-- Witness for C9 (amended) on a non-existing path. -/
theorem C9_witness :
    load_config (some "./SmallVersion.yaml") (fun _ => ConfigFileState.absent)
      = Except.ok emptyConfig :=
  C9_load_config_missing _ _ (Or.inr ⟨"./SmallVersion.yaml", rfl, rfl⟩)

/-- C10: root-level files are tested with relative directory `"."`, whose only
component is `"."`; hence no ordinary directory name in `exclude_dirs` excludes
a root-level file, while `"." ∈ exclude_dirs` excludes every root-level file. -/
theorem C10_root_relative_dir (f : String) (ed ef ee : List String) :
    relDirStr [] = "." ∧
    ("." ∉ ed → (should_exclude (relDirStr []) f ed ef ee = true ↔
      f ∈ ef ∨ splitext_ext f ∈ ee)) ∧
    ("." ∈ ed → should_exclude (relDirStr []) f ed ef ee = true) := by
  have hsplit : pySplit '/' (relDirStr []) = ["."] := by decide
  refine ⟨by decide, ?_, ?_⟩
  · intro hdot
    rw [should_exclude_iff, hsplit]
    simp [hdot]
  · intro hdot
    exact (should_exclude_iff _ _ _ _ _).mpr
      (Or.inl ⟨".", by rw [hsplit]; exact List.mem_singleton.mpr rfl, hdot⟩)

/-- Witness for C10 at concrete exclusion sets. -/
theorem C10_witness :
    (should_exclude (relDirStr []) "main.c" ["build"] [] [] = true ↔
      "main.c" ∈ ([] : List String) ∨ splitext_ext "main.c" ∈ ([] : List String)) ∧
    should_exclude (relDirStr []) "main.c" ["."] [] [] = true :=
  ⟨(C10_root_relative_dir "main.c" ["build"] [] []).2.1 (by decide),
   (C10_root_relative_dir "main.c" ["."] [] []).2.2 (by decide)⟩

/-- C4: with a fixed current year (whose decimal rendering is four digits) and
a fixed format flag, applying the copyright rewrite twice yields the same
output as applying it once, in both the old/default and the new format. -/
theorem C4_rewrite_idempotent (u : Bool) (y : Nat) (content : List Char)
    (hy : Y4ok (toString y).data) :
    copyrightRewrite u y (copyrightRewrite u y content)
      = copyrightRewrite u y content :=
  subScan_idem hy content

/-- Witness for C4 at year 2026 on an input containing two stamps. -/
theorem C4_witness :
    Y4ok (toString 2026).data ∧
    copyrightRewrite true 2026 (copyrightRewrite true 2026
      ("a Copyright (c) 2000, Insyde Software Corp. All Rights Reserved. b Copyright 2011 - 2012, Insyde Software Corp. All Rights Reserved.".data))
      = copyrightRewrite true 2026
        ("a Copyright (c) 2000, Insyde Software Corp. All Rights Reserved. b Copyright 2011 - 2012, Insyde Software Corp. All Rights Reserved.".data) :=
  ⟨⟨'2', '0', '2', '6', by decide, by decide, by decide, by decide, by decide⟩,
   C4_rewrite_idempotent true 2026 _
     ⟨'2', '0', '2', '6', by decide, by decide, by decide, by decide, by decide⟩⟩

end GetSmallVersion
